import Mathlib

set_option maxRecDepth 8192

namespace Tube

/-! Shallow embedding of `crates/tube-inotify/src/inotify.rs` and
`crates/tube-inotify/src/lib.rs`.  Byte buffers are `List Nat` (each element a
byte value), machine integers are `Nat`/`Int` with explicit modular reduction
where Rust casts occur, and Rust panics are modelled as `none`/dedicated error
constructors. -/

/-- `SYSCALL_ERROR` from `inotify.rs`. -/
def SYSCALL_ERROR : Int := -1

/-- A 32-bit little-endian value assembled from four bytes, as `ptr.read()` of
a `repr(C)` struct field does on a little-endian target. -/
def u32le (a b c d : Nat) : Nat :=
  a + 256 * b + 65536 * c + 16777216 * d

/-- The four little-endian bytes of a 32-bit value. -/
def le32 (n : Nat) : List Nat :=
  [n % 256, n / 256 % 256, n / 65536 % 256, n / 16777216 % 256]

/-- `InotifyEvent` from `inotify.rs`: `wd`, `mask`, `cookie` hold the 32-bit
patterns read from the record header (the Rust `wd` is an `i32`; we carry its
unsigned bit pattern), `name` the optional decoded name bytes. -/
structure InotifyEvent where
  wd : Nat
  mask : Nat
  cookie : Nat
  name : Option (List Nat)
deriving DecidableEq, Repr

/-- `InotifyEvent::from_buffer`.  The Rust function asserts the slice holds at
least the 16-byte `ffi::inotify_event` header (modelled by the 16-element
match; a shorter buffer is the `assert!` panic, `none`), reads `wd`, `mask`,
`cookie`, `len` from it, then takes `buffer[event_size..event_size + len]` —
a panic (`none`) when that slice end exceeds the buffer length — and keeps the
bytes before the first NUL (`splitn(2, |c| c == &0u8).next()`).  On success it
returns `event_end = 16 + len` (the consumed size) together with the event. -/
def from_buffer (buffer : List Nat) : Option (Nat × InotifyEvent) :=
  match buffer with
  | b0 :: b1 :: b2 :: b3 :: b4 :: b5 :: b6 :: b7 ::
    b8 :: b9 :: b10 :: b11 :: b12 :: b13 :: b14 :: b15 :: rest =>
    if rest.length < u32le b12 b13 b14 b15 then
      none
    else
      some (16 + u32le b12 b13 b14 b15,
        { wd := u32le b0 b1 b2 b3
          mask := u32le b4 b5 b6 b7
          cookie := u32le b8 b9 b10 b11
          name := some ((rest.take (u32le b12 b13 b14 b15)).takeWhile (fun c => c != 0)) })
  | _ => none

/-- `InotifyEventBatch<N>` from `inotify.rs`: the fixed `[u8; N]` array is
`buffer` (so the capacity `N` is `buffer.length`), `num_bytes` the valid
length reported by `read`, `pos` the iteration cursor. -/
structure InotifyEventBatch where
  buffer : List Nat
  num_bytes : Nat
  pos : Nat
deriving DecidableEq, Repr

/-- `InotifyEventBatch::new`. -/
def InotifyEventBatch.new (buffer : List Nat) (num_bytes : Nat) : InotifyEventBatch :=
  { buffer := buffer, num_bytes := num_bytes, pos := 0 }

/-- One call of `<InotifyEventBatch as Iterator>::next`.  `none` models a panic
inside `from_buffer`; `some (b, none)` is Rust's `None` (iteration finished,
state untouched); `some (b2, some e)` yields event `e` with the cursor advanced
by the consumed size.  Note the slice handed to `from_buffer` is
`self.buffer[self.pos..]` — the whole remaining capacity, not just the valid
length. -/
def batchNext (b : InotifyEventBatch) : Option (InotifyEventBatch × Option InotifyEvent) :=
  if b.num_bytes ≤ b.pos then
    some (b, none)
  else
    match from_buffer (b.buffer.drop b.pos) with
    | none => none
    | some (size, e) => some ({ b with pos := b.pos + size }, some e)

/-- Iterate the batch through at most `fuel` calls of `next`, collecting the
yielded events; `none` when a call panics or the fuel runs out before `next`
returns `None`. -/
def runBatch : Nat → InotifyEventBatch → Option (List InotifyEvent)
  | 0, _ => none
  | fuel + 1, b =>
    match batchNext b with
    | none => none
    | some (_, none) => some []
    | some (b2, some e) => (runBatch fuel b2).map (fun es => e :: es)

/-- A synthetic well-formed inotify record: header fields, name bytes, and the
number of padding zero bytes after the terminating NUL. -/
structure EventRec where
  wd : Nat
  mask : Nat
  cookie : Nat
  name : List Nat
  pad : Nat
deriving DecidableEq, Repr

/-- The declared `len` field of a record: name bytes, the NUL, the padding. -/
def recLen (r : EventRec) : Nat := r.name.length + 1 + r.pad

/-- Total wire size of a record: 16 header bytes plus the declared length. -/
def recSize (r : EventRec) : Nat := 16 + recLen r

/-- The 16 header bytes of a record, little-endian. -/
def encodeHeader (r : EventRec) : List Nat :=
  le32 r.wd ++ le32 r.mask ++ le32 r.cookie ++ le32 (recLen r)

/-- The full wire encoding of a record: header, name, NUL, padding. -/
def encodeRec (r : EventRec) : List Nat :=
  encodeHeader r ++ (r.name ++ 0 :: List.replicate r.pad 0)

/-- Well-formedness of a synthetic record: the header fields fit in 32 bits
and the name bytes are NUL-free byte values. -/
def WfRec (r : EventRec) : Prop :=
  r.wd < 4294967296 ∧ r.mask < 4294967296 ∧ r.cookie < 4294967296 ∧
    recLen r < 4294967296 ∧ ∀ b ∈ r.name, b ≠ 0 ∧ b < 256

instance (r : EventRec) : Decidable (WfRec r) := by
  unfold WfRec; infer_instance

/-- The event a well-formed record decodes to. -/
def toEvent (r : EventRec) : InotifyEvent :=
  { wd := r.wd, mask := r.mask, cookie := r.cookie, name := some r.name }

/-- A raw inotify record: header fields and the raw bytes of the declared
name region, which may be empty (declared name length 0) and need not be
NUL-terminated.  This is the general wire-format family; `EventRec` is its
NUL-terminated-name special case. -/
structure RawRec where
  wd : Nat
  mask : Nat
  cookie : Nat
  nameField : List Nat
deriving DecidableEq, Repr

/-- Wire size of a raw record: 16 header bytes plus the declared length. -/
def rawSize (r : RawRec) : Nat := 16 + r.nameField.length

/-- Wire encoding of a raw record: header carrying the declared length, then
the name-region bytes exactly as given. -/
def encodeRaw (r : RawRec) : List Nat :=
  le32 r.wd ++ le32 r.mask ++ le32 r.cookie ++ le32 r.nameField.length ++ r.nameField

/-- Well-formedness of a raw record: the header fields fit in 32 bits and the
name-region bytes are byte values (a NUL among them is allowed). -/
def WfRaw (r : RawRec) : Prop :=
  r.wd < 4294967296 ∧ r.mask < 4294967296 ∧ r.cookie < 4294967296 ∧
    r.nameField.length < 4294967296 ∧ ∀ b ∈ r.nameField, b < 256

instance (r : RawRec) : Decidable (WfRaw r) := by
  unfold WfRaw; infer_instance

/-- The event the decoder produces for a raw record: the name is `Some` of
the name-region bytes before the first NUL — `Some` of the empty list when
the declared length is 0. -/
def rawToEvent (r : RawRec) : InotifyEvent :=
  { wd := r.wd, mask := r.mask, cookie := r.cookie,
    name := some (r.nameField.takeWhile (fun c => c != 0)) }

/-- Back-to-back wire encoding of a list of raw records. -/
def encodeAllRaw (rs : List RawRec) : List Nat := (rs.map encodeRaw).flatten

/-- Concrete record used in closed instantiations: name `AB`, one pad byte. -/
def wrec1 : EventRec := { wd := 1, mask := 8, cookie := 0, name := [65, 66], pad := 1 }

/-- Concrete raw record with a NUL-terminated name and one padding byte. -/
def wraw1 : RawRec := { wd := 1, mask := 8, cookie := 0, nameField := [65, 66, 0, 0] }

/-- Concrete raw record with declared name length 0. -/
def wraw2 : RawRec := { wd := 2, mask := 32, cookie := 7, nameField := [] }

/-- Association list standing for the `HashMap<RawFd, PathBuf>` field
`watchers`: `hmGet` is `HashMap::get`. -/
def hmGet (k : Int) : List (Int × String) → Option String
  | [] => none
  | (k2, v) :: rest => if k2 = k then some v else hmGet k rest

/-- `HashMap::insert`: replaces the value of an existing key, otherwise adds
the pair. -/
def hmInsert (k : Int) (v : String) : List (Int × String) → List (Int × String)
  | [] => [(k, v)]
  | (k2, v2) :: rest => if k2 = k then (k, v) :: rest else (k2, v2) :: hmInsert k v rest

/-- The `HashMap` representation invariant: one entry per key. -/
def keysNodup (w : List (Int × String)) : Prop := (w.map Prod.fst).Nodup

instance (w : List (Int × String)) : Decidable (keysNodup w) := by
  unfold keysNodup; infer_instance

/-- Number of entries stored under key `k`. -/
def countKey (k : Int) (w : List (Int × String)) : Nat :=
  (w.filter (fun p => p.1 == k)).length

/-- `Inotify::watch` from `inotify.rs`.  The watch descriptor `wd` returned by
the `inotify_add_watch` syscall and the thread-local `errno` value are oracle
parameters.  The result is the `watchers` registry at the moment `watch`
returns, paired with the error if any: on `SYSCALL_ERROR` the error is
returned and the registry is untouched, otherwise `watchers.insert(wd,
pathname)` runs. -/
def watch (watchers : List (Int × String)) (pathname : String) (wd : Int)
    (errnoVal : Int) : List (Int × String) × Option Int :=
  if wd = SYSCALL_ERROR then (watchers, some errnoVal)
  else (hmInsert wd pathname watchers, none)

/-- `Inotify::path_for_watch`: `self.watchers.get(&wd)` (the
`and_then(Some(as_path))` is the identity on the stored path). -/
def path_for_watch (watchers : List (Int × String)) (wd : Int) : Option String :=
  hmGet wd watchers

/-- `Inotify::events_ready`.  Oracles: `pollRet` is the `poll` syscall return,
`revents` the bit pattern the kernel wrote into `fds[0].revents`, `errnoVal`
the thread-local `errno`.  `none` models the `panic!` branch taken for a
negative return other than `SYSCALL_ERROR`; otherwise the readiness boolean is
`ret != 0 && revents & POLLIN != 0` with `POLLIN = 1`. -/
def events_ready (pollRet : Int) (revents : Nat) (errnoVal : Int) :
    Option (Except Int Bool) :=
  if pollRet = SYSCALL_ERROR then some (.error errnoVal)
  else if pollRet < 0 then none
  else some (.ok ((pollRet != 0) && ((revents &&& 1) != 0)))

/-- Outcome of one `poll_next` resume: `pending` is `Poll::Pending`, `ready`
carries the `Option<Result<InotifyEventBatch, Errno>>` of `Poll::Ready`, and
`fault` propagates the `panic!` inside `events_ready`. -/
inductive PollResult where
  | pending
  | ready (item : Option (Except Int InotifyEventBatch))
  | fault

/-- `<Inotify as Stream>::poll_next`.  Oracles: `pollRet`, `revents`,
`errnoVal` feed `events_ready`; `readRet` is the `isize` returned by `read`
and `bufAfter` the 4096-byte buffer contents after that call.  An
`events_ready` error is returned as a ready error item; not-ready returns
`Poll::Pending` before any read; otherwise the batch is built from the buffer
and `bytes_read as usize`, the two's-complement reinterpretation of the
`isize`, modelled as `(readRet % 2 ^ 64).toNat`. -/
def poll_next (pollRet : Int) (revents : Nat) (errnoVal : Int) (readRet : Int)
    (bufAfter : List Nat) : PollResult :=
  match events_ready pollRet revents errnoVal with
  | none => .fault
  | some (.error e) => .ready (some (.error e))
  | some (.ok false) => .pending
  | some (.ok true) =>
      .ready (some (.ok (InotifyEventBatch.new bufAfter ((readRet % (2 ^ 64)).toNat))))

/-- A modelled directory tree for `lib.rs`'s `watch_recursive`: leaves are
non-directory entries, nodes directories with their entries. -/
inductive FsTree where
  | file (name : String)
  | dir (name : String) (entries : List FsTree)

/-- The ways `watch_recursive` can fail: the `NotDirectory` error for a
non-directory root, and the `todo!()` panic hit by any directory entry that is
not itself a directory (or whose `read_dir` item is an `Err`). -/
inductive WatchRecErr where
  | notDirectory (path : String)
  | todoUnfinished

mutual

/-- `Inotify::watch_recursive` from `lib.rs` over a modelled tree.  `s` is the
list of paths registered so far: an entry would be added by a call to `watch`,
and `watch_recursive` makes no such call, so `s` is only threaded through.  A
non-directory root returns `NotDirectory`; otherwise each entry is processed
by `watchEntries`.  The depth is decremented by
`depth.and_then(|n| Some(n - 1))` with no zero check before descending
(`Nat` truncated subtraction stands in for the `u32` decrement, whose
underflow at 0 the code also never guards). -/
def watch_recursive (s : List String) : FsTree → Option Nat → Except WatchRecErr (List String)
  | .file n, _ => .error (.notDirectory n)
  | .dir _ entries, depth => watchEntries s entries depth

/-- The `for entry in pathname.read_dir()` loop of `watch_recursive`:
directory entries are recursed into with the decremented depth, anything else
hits the `todo!()`. -/
def watchEntries (s : List String) : List FsTree → Option Nat → Except WatchRecErr (List String)
  | [], _ => .ok s
  | .dir n es :: rest, depth =>
    match watch_recursive s (.dir n es) (depth.map (fun k => k - 1)) with
    | .error e => .error e
    | .ok s2 => watchEntries s2 rest depth
  | .file _ :: _, _ => .error .todoUnfinished

end

/-- The tree `root/{a/, b/{c/}}` named by the claim about recursive watches. -/
def treeA : FsTree := .dir "a" []

/-- Subdirectory `c` of `b`. -/
def treeC : FsTree := .dir "c" []

/-- Subdirectory `b`, containing `c`. -/
def treeB : FsTree := .dir "b" [treeC]

/-- The root of the example tree. -/
def treeRoot : FsTree := .dir "root" [treeA, treeB]

theorem u32le_le32 (n : Nat) (h : n < 4294967296) :
    u32le (n % 256) (n / 256 % 256) (n / 65536 % 256) (n / 16777216 % 256) = n := by
  unfold u32le
  omega

theorem encodeHeader_length (r : EventRec) : (encodeHeader r).length = 16 := by
  simp [encodeHeader, le32]

theorem encodeRec_length (r : EventRec) : (encodeRec r).length = recSize r := by
  simp [encodeRec, encodeHeader, le32, recSize, recLen]
  omega

theorem takeWhile_name (nm zs : List Nat) (h : ∀ b ∈ nm, b ≠ 0 ∧ b < 256) :
    (nm ++ 0 :: zs).takeWhile (fun c => c != 0) = nm := by
  induction nm with
  | nil => simp [List.takeWhile]
  | cons a l ih =>
    have ha : (a != 0) = true := by
      have := (h a (by simp)).1
      simpa using this
    simp only [List.cons_append, List.takeWhile, ha, List.append_eq]
    rw [ih (fun b hb => h b (by simp [hb]))]

/-- Decoding the wire encoding of a well-formed record (followed by anything)
succeeds and recovers the record's fields and its consumed size. -/
theorem from_buffer_encodeRec (r : EventRec) (tail : List Nat) (h : WfRec r) :
    from_buffer (encodeRec r ++ tail) = some (recSize r, toEvent r) := by
  obtain ⟨hwd, hmask, hcookie, hlen, hname⟩ := h
  simp only [encodeRec, encodeHeader, le32, List.cons_append, List.nil_append,
    List.append_assoc]
  unfold from_buffer
  simp only [u32le_le32 _ hwd, u32le_le32 _ hmask, u32le_le32 _ hcookie,
    u32le_le32 _ hlen]
  have hrest : (r.name ++ 0 :: (List.replicate r.pad 0 ++ tail)).length = recLen r + tail.length := by
    simp [recLen]; omega
  have hnotlt : ¬ (r.name ++ 0 :: (List.replicate r.pad 0 ++ tail)).length < recLen r := by
    omega
  rw [if_neg hnotlt]
  have htake : (r.name ++ 0 :: (List.replicate r.pad 0 ++ tail)).take (recLen r)
      = r.name ++ 0 :: List.replicate r.pad 0 := by
    have : r.name ++ 0 :: (List.replicate r.pad 0 ++ tail)
        = (r.name ++ 0 :: List.replicate r.pad 0) ++ tail := by
      simp
    rw [this]
    apply List.take_left'
    simp [recLen]; omega
  rw [htake, takeWhile_name _ _ hname]
  simp [recSize, toEvent]

theorem runBatch_succ_item (fuel : Nat) (b b2 : InotifyEventBatch) (e : InotifyEvent)
    (hstep : batchNext b = some (b2, some e)) :
    runBatch (fuel + 1) b = (runBatch fuel b2).map (fun es => e :: es) := by
  simp [runBatch, hstep]

theorem runBatch_succ_done (fuel : Nat) (b b2 : InotifyEventBatch)
    (hstep : batchNext b = some (b2, none)) :
    runBatch (fuel + 1) b = some [] := by
  simp [runBatch, hstep]

theorem encodeRaw_length (r : RawRec) : (encodeRaw r).length = rawSize r := by
  simp [encodeRaw, le32, rawSize]
  omega

theorem encodeAllRaw_length (rs : List RawRec) :
    (encodeAllRaw rs).length = (rs.map rawSize).sum := by
  induction rs with
  | nil => simp [encodeAllRaw]
  | cons r rs ih =>
    simp only [encodeAllRaw, List.map_cons, List.flatten_cons, List.length_append,
      List.map_cons, List.sum_cons, encodeRaw_length]
    rw [← ih]
    rfl

/-- Decoding the wire encoding of a well-formed raw record (followed by
anything) succeeds, consumes its wire size, and produces its event. -/
theorem from_buffer_encodeRaw (r : RawRec) (tail : List Nat) (h : WfRaw r) :
    from_buffer (encodeRaw r ++ tail) = some (rawSize r, rawToEvent r) := by
  obtain ⟨hwd, hmask, hcookie, hlen, hbytes⟩ := h
  simp only [encodeRaw, le32, List.cons_append, List.nil_append, List.append_assoc]
  unfold from_buffer
  simp only [u32le_le32 _ hwd, u32le_le32 _ hmask, u32le_le32 _ hcookie,
    u32le_le32 _ hlen]
  rw [if_neg (by simp only [List.length_append]; omega)]
  rw [List.take_left]
  simp [rawSize, rawToEvent]

/-- Iterating a batch whose bytes from the cursor to the valid length are the
back-to-back encodings of well-formed raw records yields exactly those
records' events, in order. -/
theorem runBatch_encodeAllRaw :
    ∀ (rs : List RawRec) (pre rest : List Nat), (∀ r ∈ rs, WfRaw r) →
      runBatch (rs.length + 1)
          { buffer := pre ++ (encodeAllRaw rs ++ rest),
            num_bytes := pre.length + (encodeAllRaw rs).length,
            pos := pre.length }
        = some (rs.map rawToEvent) := by
  intro rs
  induction rs with
  | nil =>
    intro pre rest h
    simp [encodeAllRaw, runBatch, batchNext]
  | cons r rs ih =>
    intro pre rest h
    have hr : WfRaw r := h r (by simp)
    have hrs : ∀ x ∈ rs, WfRaw x := fun x hx => h x (by simp [hx])
    have hone : encodeAllRaw (r :: rs) = encodeRaw r ++ encodeAllRaw rs := by
      simp [encodeAllRaw]
    have hstep : batchNext
        { buffer := pre ++ (encodeAllRaw (r :: rs) ++ rest),
          num_bytes := pre.length + (encodeAllRaw (r :: rs)).length,
          pos := pre.length }
        = some ({ buffer := pre ++ (encodeAllRaw (r :: rs) ++ rest),
                  num_bytes := pre.length + (encodeAllRaw (r :: rs)).length,
                  pos := pre.length + rawSize r }, some (rawToEvent r)) := by
      unfold batchNext
      have hlen : (encodeAllRaw (r :: rs)).length = rawSize r + (encodeAllRaw rs).length := by
        rw [hone]; simp [encodeRaw_length]
      have hnotle : ¬ (pre.length + (encodeAllRaw (r :: rs)).length ≤ pre.length) := by
        rw [hlen]; unfold rawSize; omega
      rw [if_neg hnotle]
      have hdrop : (pre ++ (encodeAllRaw (r :: rs) ++ rest)).drop pre.length
          = encodeAllRaw (r :: rs) ++ rest := List.drop_left pre _
      rw [hdrop, hone, List.append_assoc, from_buffer_encodeRaw r _ hr]
    rw [show (r :: rs).length + 1 = rs.length + 1 + 1 from rfl,
      runBatch_succ_item _ _ _ _ hstep]
    have hb2 : ({ buffer := pre ++ (encodeAllRaw (r :: rs) ++ rest),
                  num_bytes := pre.length + (encodeAllRaw (r :: rs)).length,
                  pos := pre.length + rawSize r } : InotifyEventBatch)
        = { buffer := (pre ++ encodeRaw r) ++ (encodeAllRaw rs ++ rest),
            num_bytes := (pre ++ encodeRaw r).length + (encodeAllRaw rs).length,
            pos := (pre ++ encodeRaw r).length } := by
      have h1 : pre ++ (encodeAllRaw (r :: rs) ++ rest)
          = (pre ++ encodeRaw r) ++ (encodeAllRaw rs ++ rest) := by
        rw [hone]; simp [List.append_assoc]
      have h2 : pre.length + (encodeAllRaw (r :: rs)).length
          = (pre ++ encodeRaw r).length + (encodeAllRaw rs).length := by
        rw [hone]; simp [encodeRaw_length]; omega
      have h3 : pre.length + rawSize r = (pre ++ encodeRaw r).length := by
        simp [encodeRaw_length]
      rw [h1, h2, h3]
    rw [hb2, ih (pre ++ encodeRaw r) rest hrs]
    simp

/-- A successfully decoded event always carries a (possibly empty) name. -/
theorem from_buffer_name_present (buffer : List Nat) (sz : Nat) (e : InotifyEvent)
    (h : from_buffer buffer = some (sz, e)) : e.name ≠ none := by
  unfold from_buffer at h
  split at h
  · split at h
    · exact absurd h (by simp)
    · simp only [Option.some.injEq, Prod.mk.injEq] at h
      rw [← h.2]
      simp
  · exact absurd h (by simp)

theorem hmGet_insert_self (k : Int) (v : String) (l : List (Int × String)) :
    hmGet k (hmInsert k v l) = some v := by
  induction l with
  | nil => simp [hmInsert, hmGet]
  | cons a rest ih =>
    obtain ⟨k2, v2⟩ := a
    by_cases h : k2 = k
    · simp [hmInsert, h, hmGet]
    · simp [hmInsert, h, hmGet, ih]

theorem hmGet_insert_ne (k2 k : Int) (v : String) (l : List (Int × String))
    (h : k2 ≠ k) : hmGet k2 (hmInsert k v l) = hmGet k2 l := by
  induction l with
  | nil => simp [hmInsert, hmGet, Ne.symm h]
  | cons a rest ih =>
    obtain ⟨k3, v3⟩ := a
    by_cases h3 : k3 = k
    · subst h3
      simp [hmInsert, hmGet, Ne.symm h]
    · simp only [hmInsert, if_neg h3, hmGet]
      by_cases h32 : k3 = k2
      · simp [h32]
      · simp [h32, ih]

theorem mem_keys_hmInsert (m k : Int) (v : String) (l : List (Int × String)) :
    m ∈ (hmInsert k v l).map Prod.fst ↔ m = k ∨ m ∈ l.map Prod.fst := by
  induction l with
  | nil => simp [hmInsert]
  | cons a rest ih =>
    obtain ⟨k2, v2⟩ := a
    by_cases h : k2 = k
    · subst h
      simp [hmInsert]
    · simp [hmInsert, h, ih]
      tauto

theorem keysNodup_hmInsert (k : Int) (v : String) (l : List (Int × String))
    (h : keysNodup l) : keysNodup (hmInsert k v l) := by
  unfold keysNodup at *
  induction l with
  | nil => simp [hmInsert]
  | cons a rest ih =>
    obtain ⟨k2, v2⟩ := a
    simp only [List.map_cons, List.nodup_cons] at h
    by_cases hk : k2 = k
    · subst hk
      simpa [hmInsert] using h
    · simp only [hmInsert, if_neg hk, List.map_cons, List.nodup_cons]
      refine ⟨?_, ih h.2⟩
      intro hmem
      rcases (mem_keys_hmInsert k2 k v rest).mp hmem with h1 | h1
      · exact hk h1
      · exact h.1 h1

theorem countKey_eq_zero (k : Int) (l : List (Int × String))
    (h : k ∉ l.map Prod.fst) : countKey k l = 0 := by
  induction l with
  | nil => simp [countKey]
  | cons a rest ih =>
    obtain ⟨k2, v2⟩ := a
    simp only [List.map_cons, List.mem_cons, not_or] at h
    have hne : (k2 == k) = false := by
      simp [beq_iff_eq]
      exact fun hh => h.1 hh.symm
    simp [countKey, List.filter_cons, hne]
    have := ih h.2
    simpa [countKey] using this

theorem countKey_hmInsert (k : Int) (v : String) (l : List (Int × String))
    (h : keysNodup l) : countKey k (hmInsert k v l) = 1 := by
  unfold keysNodup at h
  induction l with
  | nil => simp [hmInsert, countKey, List.filter_cons]
  | cons a rest ih =>
    obtain ⟨k2, v2⟩ := a
    simp only [List.map_cons, List.nodup_cons] at h
    by_cases hk : k2 = k
    · subst hk
      have h0 : countKey k2 rest = 0 := countKey_eq_zero k2 rest h.1
      simp [hmInsert, countKey, List.filter_cons]
      simpa [countKey] using h0
    · have hne : (k2 == k) = false := by simp [beq_iff_eq, hk]
      have h0 : countKey k (hmInsert k v rest) = 1 := ih h.2
      simp [hmInsert, hk, countKey, List.filter_cons, hne]
      simpa [countKey] using h0

mutual

theorem watch_recursive_adds_nothing :
    ∀ (t : FsTree) (s : List String) (d : Option Nat) (s2 : List String),
      watch_recursive s t d = .ok s2 → s2 = s
  | .file n, s, d, s2, h => by simp [watch_recursive] at h
  | .dir n es, s, d, s2, h =>
    watchEntries_adds_nothing es s d s2 (by simpa [watch_recursive] using h)

theorem watchEntries_adds_nothing :
    ∀ (es : List FsTree) (s : List String) (d : Option Nat) (s2 : List String),
      watchEntries s es d = .ok s2 → s2 = s
  | [], s, d, s2, h => by
    simp only [watchEntries] at h
    exact (Except.ok.inj h).symm
  | .dir n es2 :: rest, s, d, s2, h => by
    simp only [watchEntries] at h
    cases hm : watch_recursive s (.dir n es2) (d.map (fun k => k - 1)) with
    | error e =>
      rw [hm] at h
      exact absurd h (by simp)
    | ok s3 =>
      rw [hm] at h
      have h1 : s3 = s :=
        watch_recursive_adds_nothing (.dir n es2) s (d.map (fun k => k - 1)) s3 hm
      have h2 : s2 = s3 := watchEntries_adds_nothing rest s3 d s2 h
      exact h2.trans h1
  | .file n :: rest, s, d, s2, h => by
    simp only [watchEntries] at h
    exact absurd h (by simp)

end

/-- C1, counterexample: a batch whose single record declares name length 10,
so its span 26 exceeds the valid length 16, is nonetheless decoded by `next`
with no error of any kind — the name bytes 65, 66, 67 are read from offsets
16..18, beyond the valid length — refuting the claim that such a record fails
to decode with a `DecodeError`. -/
theorem c1_counterexample :
    batchNext (InotifyEventBatch.new
        [1, 0, 0, 0, 2, 0, 0, 0, 3, 0, 0, 0, 10, 0, 0, 0,
         65, 66, 67, 0, 0, 0, 0, 0, 0, 0, 9, 9, 9, 9, 9, 9] 16)
      = some ({ buffer := [1, 0, 0, 0, 2, 0, 0, 0, 3, 0, 0, 0, 10, 0, 0, 0,
                           65, 66, 67, 0, 0, 0, 0, 0, 0, 0, 9, 9, 9, 9, 9, 9],
                num_bytes := 16, pos := 26 },
              some { wd := 1, mask := 2, cookie := 3, name := some [65, 66, 67] }) := by
  rfl

/-- C1, amended: the decoder bounds a record's declared span only against the
remaining buffer capacity, never against the batch's valid length, and no
`DecodeError` exists.  (i) A record whose span exceeds the valid length `num`
but fits the remaining capacity is decoded successfully, its bytes beyond the
valid length included; (ii) a record whose declared length exceeds the bytes
remaining in the buffer makes `from_buffer` panic (an out-of-bounds slice,
modelled `none`), not return an error value. -/
theorem c1_decode_bound_checks :
    (∀ (r : EventRec) (pre rest : List Nat) (num : Nat), WfRec r →
      pre.length < num → num < pre.length + recSize r →
      batchNext { buffer := pre ++ (encodeRec r ++ rest), num_bytes := num, pos := pre.length }
        = some ({ buffer := pre ++ (encodeRec r ++ rest), num_bytes := num,
                  pos := pre.length + recSize r }, some (toEvent r)))
    ∧ (∀ (r : EventRec) (body : List Nat), WfRec r → body.length < recLen r →
        from_buffer (encodeHeader r ++ body) = none) := by
  constructor
  · intro r pre rest num hr h1 h2
    simp only [batchNext]
    rw [if_neg (by omega)]
    rw [List.drop_left pre _, from_buffer_encodeRec r rest hr]
  · intro r body hr hlt
    obtain ⟨hwd, hmask, hcookie, hlen, hname⟩ := hr
    simp only [encodeHeader, le32, List.cons_append, List.nil_append, List.append_assoc]
    unfold from_buffer
    simp only [u32le_le32 _ hwd, u32le_le32 _ hmask, u32le_le32 _ hcookie,
      u32le_le32 _ hlen]
    rw [if_pos hlt]

/-- Witness for the amended C1 theorem at concrete inputs. -/
theorem c1_decode_bound_checks_witness :
    batchNext { buffer := [] ++ (encodeRec wrec1 ++ [7, 7, 7]), num_bytes := 17,
                pos := List.length ([] : List Nat) }
      = some ({ buffer := [] ++ (encodeRec wrec1 ++ [7, 7, 7]), num_bytes := 17,
                pos := List.length ([] : List Nat) + recSize wrec1 }, some (toEvent wrec1))
    ∧ from_buffer (encodeHeader wrec1 ++ [0, 0]) = none :=
  ⟨c1_decode_bound_checks.1 wrec1 [] [7, 7, 7] 17 (by decide) (by decide) (by decide),
   c1_decode_bound_checks.2 wrec1 [0, 0] (by decide) (by decide)⟩

/-- C2, counterexample: one record encoded with declared name length 0 — 16
bytes, valid length 16 — iterates to exactly one event, but that event carries
`Some` of the empty name where the encoded record carried no name at all, so
the decoded fields do not all equal what was encoded. -/
theorem c2_counterexample :
    runBatch 2 (InotifyEventBatch.new
        [9, 0, 0, 0, 2, 0, 0, 0, 3, 0, 0, 0, 0, 0, 0, 0] 16)
      = some [{ wd := 9, mask := 2, cookie := 3, name := some [] }]
    ∧ (some ([] : List Nat) ≠ (none : Option (List Nat))) :=
  ⟨rfl, by simp⟩

/-- C2, amended: for every sequence of `N` well-formed raw records — arbitrary
declared name-field bytes, declared length 0 included — encoded back-to-back
into a buffer whose valid length is the sum of their sizes (16 header bytes
plus declared name length each), iterating the batch yields exactly `N` events
in order, each with the encoded watch id, mask and cookie and with `Some` of
the name-field bytes before the first NUL as its name, and the per-record
consumed sizes sum to the valid length, after which iteration ends.  In
particular a zero-length record decodes to `Some` of the empty name, not the
absent name it was encoded with, while a NUL-terminated name with padding
decodes to exactly the encoded name. -/
theorem c2_batch_decode_full :
    (∀ (rs : List RawRec) (rest : List Nat), (∀ r ∈ rs, WfRaw r) →
      runBatch (rs.length + 1)
          (InotifyEventBatch.new (encodeAllRaw rs ++ rest) (encodeAllRaw rs).length)
        = some (rs.map rawToEvent)
      ∧ (rs.map rawSize).sum = (encodeAllRaw rs).length)
    ∧ (∀ r : RawRec, r.nameField = [] →
        rawToEvent r = { wd := r.wd, mask := r.mask, cookie := r.cookie, name := some [] })
    ∧ (∀ r : EventRec, WfRec r →
        rawToEvent { wd := r.wd, mask := r.mask, cookie := r.cookie,
                     nameField := r.name ++ 0 :: List.replicate r.pad 0 } = toEvent r) := by
  refine ⟨?_, ?_, ?_⟩
  · intro rs rest h
    constructor
    · have hmain := runBatch_encodeAllRaw rs [] rest h
      simpa [InotifyEventBatch.new] using hmain
    · exact (encodeAllRaw_length rs).symm
  · intro r hr
    simp [rawToEvent, hr]
  · intro r hr
    obtain ⟨hwd, hmask, hcookie, hlen, hname⟩ := hr
    simp only [rawToEvent, toEvent]
    rw [takeWhile_name _ _ hname]

/-- Witness for the amended C2 theorem: one NUL-terminated-name record and one
zero-name-length record. -/
theorem c2_batch_decode_full_witness :
    (runBatch 3 (InotifyEventBatch.new (encodeAllRaw [wraw1, wraw2] ++ [])
        (encodeAllRaw [wraw1, wraw2]).length)
      = some ([wraw1, wraw2].map rawToEvent)
    ∧ ([wraw1, wraw2].map rawSize).sum = (encodeAllRaw [wraw1, wraw2]).length)
    ∧ rawToEvent wraw2
        = { wd := wraw2.wd, mask := wraw2.mask, cookie := wraw2.cookie, name := some [] }
    ∧ rawToEvent { wd := wrec1.wd, mask := wrec1.mask, cookie := wrec1.cookie,
                   nameField := wrec1.name ++ 0 :: List.replicate wrec1.pad 0 }
        = toEvent wrec1 := by
  refine ⟨?_, c2_batch_decode_full.2.1 wraw2 rfl, c2_batch_decode_full.2.2 wrec1 (by decide)⟩
  have h := c2_batch_decode_full.1 [wraw1, wraw2] [] (by decide)
  simpa using h

/-- C3 (against the code as written): on the tree root/\x7ba/, b/\x7bc/\x7d\x7d,
`watch_recursive` with unlimited depth — and likewise with depth 1 — returns
success with no path registered at all: the recursion threads the registry
through unchanged, never calling `watch`. -/
theorem c3_failing_input :
    watch_recursive [] treeRoot none = .ok ([] : List String)
    ∧ watch_recursive [] treeRoot (some 1) = .ok ([] : List String) :=
  ⟨rfl, rfl⟩

/-- C4, counterexample: with the descriptor ready and the `read` syscall
returning the error indication `-1`, `poll_next` produces a ready batch whose
valid length is `-1 as usize = 2 ^ 64 - 1`, far exceeding the 4096-byte buffer
capacity — refuting the claim that a read error is surfaced as an error item
or empty batch and never as an ill-formed batch. -/
theorem c4_counterexample :
    poll_next 1 1 0 (-1) (List.replicate 4096 0)
      = PollResult.ready (some (.ok
          (InotifyEventBatch.new (List.replicate 4096 0) 18446744073709551615)))
    ∧ (List.replicate 4096 (0 : Nat)).length < 18446744073709551615 := by
  constructor
  · rfl
  · rw [List.length_replicate]
    norm_num

/-- C4, amended: a readiness-wait failure is surfaced to the consumer as a
ready error item; but a `read` failure is not surfaced: the `-1` return is
reinterpreted as `2 ^ 64 - 1` and becomes the batch's valid length, exceeding
the buffer capacity, so consuming that batch later reads stale bytes and
ultimately panics. -/
theorem c4_read_failure_behavior :
    (∀ (revents : Nat) (errnoVal readRet : Int) (bufAfter : List Nat),
      poll_next SYSCALL_ERROR revents errnoVal readRet bufAfter
        = PollResult.ready (some (.error errnoVal)))
    ∧ (∀ (pollRet : Int) (revents : Nat) (errnoVal : Int) (bufAfter : List Nat),
        events_ready pollRet revents errnoVal = some (.ok true) →
        bufAfter.length = 4096 →
        poll_next pollRet revents errnoVal (-1) bufAfter
          = PollResult.ready (some (.ok (InotifyEventBatch.new bufAfter 18446744073709551615)))
        ∧ bufAfter.length < 18446744073709551615) := by
  constructor
  · intro revents errnoVal readRet bufAfter
    simp [poll_next, events_ready, SYSCALL_ERROR]
  · intro pollRet revents errnoVal bufAfter hready hlen
    have hcast : ((-1 : Int) % (2 ^ 64)).toNat = 18446744073709551615 := by rfl
    constructor
    · unfold poll_next
      rw [hready]
      simp [hcast]
    · omega

/-- Witness for the amended C4 theorem at concrete inputs. -/
theorem c4_read_failure_behavior_witness :
    poll_next SYSCALL_ERROR 0 5 9 [] = PollResult.ready (some (.error 5))
    ∧ (poll_next 1 1 0 (-1) (List.replicate 4096 0)
        = PollResult.ready (some (.ok (InotifyEventBatch.new (List.replicate 4096 0)
            18446744073709551615)))
      ∧ (List.replicate 4096 (0 : Nat)).length < 18446744073709551615) :=
  ⟨c4_read_failure_behavior.1 0 5 9 [],
   c4_read_failure_behavior.2 1 1 0 (List.replicate 4096 0) (by rfl)
     (by rw [List.length_replicate])⟩

/-- C5, counterexample: a record whose header declares name length zero
decodes to an event carrying `Some` of the empty name, not an absent name —
refuting the claim that a zero name length yields no name at all. -/
theorem c5_counterexample :
    from_buffer [1, 0, 0, 0, 2, 0, 0, 0, 3, 0, 0, 0, 0, 0, 0, 0]
      = some (16, { wd := 1, mask := 2, cookie := 3, name := some [] })
    ∧ (some ([] : List Nat) ≠ (none : Option (List Nat))) :=
  ⟨rfl, by simp⟩

/-- C5, amended: a non-zero declared name length yields the name bytes with
the terminating NUL and the padding after it stripped; a zero declared length
yields `Some` of the empty name; the name field of a successfully decoded
event is never absent. -/
theorem c5_name_field_behavior :
    (∀ (r : EventRec) (tail : List Nat), WfRec r →
      from_buffer (encodeRec r ++ tail) = some (recSize r, toEvent r))
    ∧ (∀ (wd mask cookie : Nat) (tail : List Nat),
        wd < 4294967296 → mask < 4294967296 → cookie < 4294967296 →
        from_buffer (le32 wd ++ le32 mask ++ le32 cookie ++ le32 0 ++ tail)
          = some (16, { wd := wd, mask := mask, cookie := cookie, name := some [] }))
    ∧ (∀ (buffer : List Nat) (sz : Nat) (e : InotifyEvent),
        from_buffer buffer = some (sz, e) → e.name ≠ none) := by
  refine ⟨fun r tail hr => from_buffer_encodeRec r tail hr, ?_, from_buffer_name_present⟩
  intro wd mask cookie tail hwd hmask hcookie
  simp only [le32, List.cons_append, List.nil_append, List.append_assoc]
  unfold from_buffer
  simp only [u32le_le32 _ hwd, u32le_le32 _ hmask, u32le_le32 _ hcookie]
  norm_num [u32le]

/-- Witness for the amended C5 theorem at concrete inputs. -/
theorem c5_name_field_behavior_witness :
    from_buffer (encodeRec wrec1 ++ [9]) = some (recSize wrec1, toEvent wrec1)
    ∧ from_buffer (le32 4 ++ le32 5 ++ le32 6 ++ le32 0 ++ [8, 8])
        = some (16, { wd := 4, mask := 5, cookie := 6, name := some [] })
    ∧ ({ wd := 4, mask := 5, cookie := 6, name := some [] } : InotifyEvent).name ≠ none :=
  ⟨c5_name_field_behavior.1 wrec1 [9] (by decide),
   c5_name_field_behavior.2.1 4 5 6 [8, 8] (by decide) (by decide) (by decide),
   c5_name_field_behavior.2.2 (le32 4 ++ le32 5 ++ le32 6 ++ le32 0 ++ [8, 8]) 16 _
     (c5_name_field_behavior.2.1 4 5 6 [8, 8] (by decide) (by decide) (by decide))⟩

/-- C6: with the kernel add-watch oracle returning distinct non-error ids for
the two registrations, both paths are stored and `path_for_watch` returns for
each id exactly the path given at its registration; and a registration under
a reused (retired) id replaces the stale entry — the lookup returns the new
path and exactly one entry is keyed by that id. -/
theorem c6_registry_semantics (w : List (Int × String)) (p1 p2 : String)
    (wd1 wd2 errnoVal : Int) (hn : keysNodup w) (h1 : wd1 ≠ SYSCALL_ERROR)
    (h2 : wd2 ≠ SYSCALL_ERROR) (h12 : wd1 ≠ wd2) :
    path_for_watch (watch (watch w p1 wd1 errnoVal).1 p2 wd2 errnoVal).1 wd1 = some p1
    ∧ path_for_watch (watch (watch w p1 wd1 errnoVal).1 p2 wd2 errnoVal).1 wd2 = some p2
    ∧ (∀ (q : String) (wd : Int), wd ≠ SYSCALL_ERROR →
        path_for_watch
            (watch (watch (watch w p1 wd1 errnoVal).1 p2 wd2 errnoVal).1 q wd errnoVal).1 wd
          = some q
        ∧ countKey wd
            (watch (watch (watch w p1 wd1 errnoVal).1 p2 wd2 errnoVal).1 q wd errnoVal).1
          = 1) := by
  have hw2 : (watch (watch w p1 wd1 errnoVal).1 p2 wd2 errnoVal).1
      = hmInsert wd2 p2 (hmInsert wd1 p1 w) := by
    simp [watch, h1, h2]
  have hn2 : keysNodup (hmInsert wd2 p2 (hmInsert wd1 p1 w)) :=
    keysNodup_hmInsert _ _ _ (keysNodup_hmInsert _ _ _ hn)
  refine ⟨?_, ?_, ?_⟩
  · rw [hw2]
    unfold path_for_watch
    rw [hmGet_insert_ne wd1 wd2 p2 _ h12, hmGet_insert_self]
  · rw [hw2]
    unfold path_for_watch
    rw [hmGet_insert_self]
  · intro q wd hwd
    have hw3 : (watch (hmInsert wd2 p2 (hmInsert wd1 p1 w)) q wd errnoVal).1
        = hmInsert wd q (hmInsert wd2 p2 (hmInsert wd1 p1 w)) := by
      simp [watch, hwd]
    constructor
    · rw [hw2, hw3]
      unfold path_for_watch
      rw [hmGet_insert_self]
    · rw [hw2, hw3]
      exact countKey_hmInsert _ _ _ hn2

/-- Witness for C6 at concrete inputs (ids 1 and 2, then reuse of id 1). -/
theorem c6_registry_semantics_witness :
    path_for_watch (watch (watch [] "a" 1 0).1 "b" 2 0).1 1 = some "a"
    ∧ path_for_watch (watch (watch [] "a" 1 0).1 "b" 2 0).1 2 = some "b"
    ∧ path_for_watch (watch (watch (watch [] "a" 1 0).1 "b" 2 0).1 "c" 1 0).1 1 = some "c"
    ∧ countKey 1 (watch (watch (watch [] "a" 1 0).1 "b" 2 0).1 "c" 1 0).1 = 1 := by
  have h := c6_registry_semantics [] "a" "b" 1 2 0 (by decide) (by decide) (by decide) (by decide)
  exact ⟨h.1, h.2.1, (h.2.2 "c" 1 (by decide)).1, (h.2.2 "c" 1 (by decide)).2⟩

/-- C7: when the add-watch syscall fails the operation returns the OS error
with the registry exactly as before the call; on success exactly one entry is
stored under the returned id, retrievable by it, with every other key's lookup
unchanged. -/
theorem c7_watch_error_no_mutation (w : List (Int × String)) (p : String)
    (errnoVal : Int) (hn : keysNodup w) :
    watch w p SYSCALL_ERROR errnoVal = (w, some errnoVal)
    ∧ (∀ wd : Int, wd ≠ SYSCALL_ERROR →
        watch w p wd errnoVal = (hmInsert wd p w, none)
        ∧ countKey wd (hmInsert wd p w) = 1
        ∧ path_for_watch (hmInsert wd p w) wd = some p
        ∧ (∀ k : Int, k ≠ wd → path_for_watch (hmInsert wd p w) k = path_for_watch w k)) := by
  refine ⟨by simp [watch], ?_⟩
  intro wd hwd
  refine ⟨by simp [watch, hwd], countKey_hmInsert _ _ _ hn, ?_, ?_⟩
  · unfold path_for_watch
    rw [hmGet_insert_self]
  · intro k hk
    unfold path_for_watch
    rw [hmGet_insert_ne k wd p w hk]

/-- Witness for C7 at a concrete registry. -/
theorem c7_watch_error_no_mutation_witness :
    watch [(1, "a")] "b" SYSCALL_ERROR 13 = ([(1, "a")], some 13)
    ∧ watch [(1, "a")] "b" 2 13 = (hmInsert 2 "b" [(1, "a")], none)
    ∧ countKey 2 (hmInsert 2 "b" [(1, "a")]) = 1
    ∧ path_for_watch (hmInsert 2 "b" [(1, "a")]) 2 = some "b"
    ∧ path_for_watch (hmInsert 2 "b" [(1, "a")]) 1 = path_for_watch [(1, "a")] 1 := by
  have h := c7_watch_error_no_mutation [(1, "a")] "b" 13 (by decide)
  exact ⟨h.1, (h.2 2 (by decide)).1, (h.2 2 (by decide)).2.1, (h.2 2 (by decide)).2.2.1,
         (h.2 2 (by decide)).2.2.2 1 (by decide)⟩

/-- C8: when the poller reports not-ready, `poll_next` returns `Poll::Pending`
whatever the read oracle and buffer would have been — no read occurs, no
buffer is touched, no item is produced for that resume. -/
theorem c8_not_ready_pending (pollRet : Int) (revents : Nat)
    (errnoVal readRet : Int) (bufAfter : List Nat)
    (h : events_ready pollRet revents errnoVal = some (.ok false)) :
    poll_next pollRet revents errnoVal readRet bufAfter = PollResult.pending := by
  unfold poll_next
  rw [h]

/-- Witness for C8 with a zero `poll` return. -/
theorem c8_not_ready_pending_witness :
    events_ready 0 0 0 = some (Except.ok false)
    ∧ poll_next 0 0 0 7 [1, 2, 3] = PollResult.pending :=
  ⟨rfl, c8_not_ready_pending 0 0 0 7 [1, 2, 3] rfl⟩

/-- C9: `poll_next` never returns `Poll::Ready(None)` — the stream never
signals end-of-sequence on its own, whatever the syscall oracles report. -/
theorem c9_never_ends (pollRet : Int) (revents : Nat) (errnoVal readRet : Int)
    (bufAfter : List Nat) :
    poll_next pollRet revents errnoVal readRet bufAfter ≠ PollResult.ready none := by
  unfold poll_next
  cases hev : events_ready pollRet revents errnoVal with
  | none => simp
  | some x =>
    cases x with
    | error e => simp
    | ok b => cases b <;> simp

/-- C10: a batch whose valid length is 0 yields no item: `next` returns
`None` leaving the buffer, valid length and cursor unchanged, so every
subsequent call does the same. -/
theorem c10_zero_valid_length (buffer : List Nat) :
    batchNext (InotifyEventBatch.new buffer 0)
      = some (InotifyEventBatch.new buffer 0, none) := by
  simp [batchNext, InotifyEventBatch.new]

end Tube
